import Mathlib

/-!
# Verification of the Beta-Binomial conjugacy lesson notebook

Shallow embedding of the mathematical content of
`lesson-bayes-conjugacy-mle/beta-binomial-model.ipynb`.

The notebook states the Binomial likelihood, the MLE `k/n`, the Beta
probability density in two forms (via the Beta integral and via the Gamma
function), the Gamma function, the Beta-Binomial posterior update
`alpha_posterior = k + alpha_prior`, `beta_posterior = n - k + beta_prior`,
and the MAP formula `(alpha - 1)/(alpha + beta - 2)`.  Each formula is
embedded below exactly as written in the source, and the asserted
properties are proved or refuted.
-/

open Set MeasureTheory intervalIntegral

namespace BetaBinomial

/-- Binomial likelihood `L(n, k | p) = C(n,k) p^k (1-p)^(n-k)`
(notebook, section "The likelihood function"). -/
noncomputable def likelihood (n k : ℕ) (p : ℝ) : ℝ :=
  (n.choose k : ℝ) * p ^ k * (1 - p) ^ (n - k)

/-- Maximum-likelihood point estimate `p = k/n`
(notebook, section "The Maximum Likelihood Estimate for p"). -/
noncomputable def mle (n k : ℕ) : ℝ := (k : ℝ) / n

/-- Posterior shape parameter `alpha_posterior = k + alpha_prior`
(notebook, section "Putting it all together"). -/
noncomputable def alpha_posterior (k : ℕ) (α : ℝ) : ℝ := (k : ℝ) + α

/-- Posterior shape parameter `beta_posterior = n - k + beta_prior`
(notebook, section "Putting it all together"). -/
noncomputable def beta_posterior (n k : ℕ) (β : ℝ) : ℝ := (n : ℝ) - (k : ℝ) + β

/-- The Beta function written as the integral
`∫ u in 0..1, u^(α-1) (1-u)^(β-1)` (notebook, "The Beta PDF and the
Beta function" / "Defining the Beta function using the Gamma function"). -/
noncomputable def Beta_fn (α β : ℝ) : ℝ :=
  ∫ u in (0:ℝ)..1, u ^ (α - 1) * (1 - u) ^ (β - 1)

/-- The Beta probability density in its integral form
`PDF_Beta(x) = x^(α-1)(1-x)^(β-1) / ∫ u in 0..1, u^(α-1)(1-u)^(β-1)`
(notebook, "The Beta PDF and the Beta function"). -/
noncomputable def PDF_Beta_integral (α β x : ℝ) : ℝ :=
  x ^ (α - 1) * (1 - x) ^ (β - 1) / Beta_fn α β

/-- The Beta probability density rewritten with the Gamma function
`PDF_Beta(x) = Γ(α+β)/(Γ(α)Γ(β)) x^(α-1)(1-x)^(β-1)`
(notebook, "Defining the Beta function using the Gamma function"). -/
noncomputable def PDF_Beta_gamma (α β x : ℝ) : ℝ :=
  Real.Gamma (α + β) / (Real.Gamma α * Real.Gamma β) * x ^ (α - 1) * (1 - x) ^ (β - 1)

/-- The Gamma function in its integral form
`Γ(z) = ∫ x in (0,∞), x^(z-1) e^(-x)` (notebook, "The Gamma function"). -/
noncomputable def Gamma_integral (z : ℝ) : ℝ :=
  ∫ x in Ioi (0:ℝ), x ^ (z - 1) * Real.exp (-x)

/-- The MAP point estimate `MAP(α, β) = (α-1)/(α+β-2)`
(notebook, "MAP = Maximum A Posteriori = Mode of Posterior Distribution"). -/
noncomputable def MAP (α β : ℝ) : ℝ := (α - 1) / (α + β - 2)

/-- Sources of the code cells of the notebook, in order of appearance.
The first cell holds the library imports and plotting configuration, the
following seven are the `# A:` placeholders, and the final cell is empty. -/
def code_cells : List String :=
  ["import matplotlib.pyplot as plt\nimport numpy as np\nimport pandas as pd\nimport seaborn as sns\nimport scipy.stats as stats\n\nsns.set_style(\"whitegrid\")\n\n%matplotlib inline\n%config InlineBackend.figure_format = \x27retina\x27",
   "# A:", "# A:", "# A:", "# A:", "# A:", "# A:", "# A:", ""]

/-! ## Helper lemmas -/

/-- Merging a natural power with a real power of the same nonnegative base. -/
theorem pow_mul_rpow {x : ℝ} (hx : 0 ≤ x) (m : ℕ) {a : ℝ} (ha : 0 < a) :
    x ^ m * x ^ (a - 1) = x ^ ((m : ℝ) + a - 1) := by
  rcases hx.eq_or_lt with h | h
  · subst h
    rcases Nat.eq_zero_or_pos m with rfl | hm
    · rw [pow_zero, one_mul]
      norm_num
    · have hm1 : (1 : ℝ) ≤ (m : ℝ) := by exact_mod_cast hm
      rw [zero_pow hm.ne', zero_mul, eq_comm,
        Real.zero_rpow (ne_of_gt (by linarith : (0 : ℝ) < (m : ℝ) + a - 1))]
  · rw [← Real.rpow_natCast x m, ← Real.rpow_add h]
    congr 1
    ring

/-- Strict two-point weighted AM-GM inequality, from strict concavity of `log`. -/
theorem amgm2_strict {w₁ w₂ p₁ p₂ : ℝ} (hw₁ : 0 < w₁) (hw₂ : 0 < w₂)
    (hw : w₁ + w₂ = 1) (hp₁ : 0 ≤ p₁) (hp₂ : 0 ≤ p₂) (hne : p₁ ≠ p₂) :
    p₁ ^ w₁ * p₂ ^ w₂ < w₁ * p₁ + w₂ * p₂ := by
  rcases hp₁.eq_or_lt with h1 | h1
  · have h2 : 0 < p₂ := hp₂.lt_of_ne fun h => hne (h1.symm.trans h)
    rw [← h1, Real.zero_rpow hw₁.ne', zero_mul, mul_zero, zero_add]
    exact mul_pos hw₂ h2
  · rcases hp₂.eq_or_lt with h2 | h2
    · rw [← h2, Real.zero_rpow hw₂.ne', mul_zero, mul_zero, add_zero]
      exact mul_pos hw₁ h1
    · have hlog := strictConcaveOn_log_Ioi.2 (mem_Ioi.mpr h1) (mem_Ioi.mpr h2) hne hw₁ hw₂ hw
      rw [smul_eq_mul, smul_eq_mul, smul_eq_mul, smul_eq_mul] at hlog
      have hsum : 0 < w₁ * p₁ + w₂ * p₂ := add_pos (mul_pos hw₁ h1) (mul_pos hw₂ h2)
      calc p₁ ^ w₁ * p₂ ^ w₂
          = Real.exp (w₁ * Real.log p₁ + w₂ * Real.log p₂) := by
            rw [Real.exp_add, Real.rpow_def_of_pos h1, Real.rpow_def_of_pos h2,
              mul_comm (Real.log p₁) w₁, mul_comm (Real.log p₂) w₂]
        _ < Real.exp (Real.log (w₁ * p₁ + w₂ * p₂)) := Real.exp_lt_exp.mpr hlog
        _ = w₁ * p₁ + w₂ * p₂ := Real.exp_log hsum

/-- The kernel `x^a (1-x)^b` is strictly below its value at `a/(a+b)`
anywhere else in `[0, 1]`. -/
theorem rpow_prod_lt {a b x : ℝ} (ha : 0 < a) (hb : 0 < b) (hx0 : 0 ≤ x)
    (hx1 : x ≤ 1) (hne : x ≠ a / (a + b)) :
    x ^ a * (1 - x) ^ b < (a / (a + b)) ^ a * (b / (a + b)) ^ b := by
  have hs : 0 < a + b := by linarith
  have h1x : (0 : ℝ) ≤ 1 - x := by linarith
  have hw₁ : 0 < a / (a + b) := div_pos ha hs
  have hw₂ : 0 < b / (a + b) := div_pos hb hs
  have hw : a / (a + b) + b / (a + b) = 1 := by field_simp
  have hp₁ : (0 : ℝ) ≤ x * (a + b) / a := div_nonneg (mul_nonneg hx0 hs.le) ha.le
  have hp₂ : (0 : ℝ) ≤ (1 - x) * (a + b) / b := div_nonneg (mul_nonneg h1x hs.le) hb.le
  have hne' : x * (a + b) / a ≠ (1 - x) * (a + b) / b := by
    intro hpq
    apply hne
    rw [eq_div_iff hs.ne']
    rw [div_eq_div_iff ha.ne' hb.ne'] at hpq
    have h3 : x * (a + b) * (a + b) = a * (a + b) := by linear_combination hpq
    exact mul_right_cancel₀ hs.ne' h3
  have key := amgm2_strict hw₁ hw₂ hw hp₁ hp₂ hne'
  have hRHS : a / (a + b) * (x * (a + b) / a) + b / (a + b) * ((1 - x) * (a + b) / b) = 1 := by
    field_simp
    ring
  rw [hRHS] at key
  have hcomb₁ : (a / (a + b)) ^ (a / (a + b)) * (x * (a + b) / a) ^ (a / (a + b))
      = x ^ (a / (a + b)) := by
    rw [← Real.mul_rpow hw₁.le hp₁]
    congr 1
    field_simp
    ring
  have hcomb₂ : (b / (a + b)) ^ (b / (a + b)) * ((1 - x) * (a + b) / b) ^ (b / (a + b))
      = (1 - x) ^ (b / (a + b)) := by
    rw [← Real.mul_rpow hw₂.le hp₂]
    congr 1
    field_simp
    ring
  have hWpos : 0 < (a / (a + b)) ^ (a / (a + b)) * (b / (a + b)) ^ (b / (a + b)) :=
    mul_pos (Real.rpow_pos_of_pos hw₁ _) (Real.rpow_pos_of_pos hw₂ _)
  have key2 : x ^ (a / (a + b)) * (1 - x) ^ (b / (a + b))
      < (a / (a + b)) ^ (a / (a + b)) * (b / (a + b)) ^ (b / (a + b)) := by
    calc x ^ (a / (a + b)) * (1 - x) ^ (b / (a + b))
        = ((a / (a + b)) ^ (a / (a + b)) * (b / (a + b)) ^ (b / (a + b))) *
            ((x * (a + b) / a) ^ (a / (a + b)) * ((1 - x) * (a + b) / b) ^ (b / (a + b))) := by
          rw [← hcomb₁, ← hcomb₂]; ring
      _ < ((a / (a + b)) ^ (a / (a + b)) * (b / (a + b)) ^ (b / (a + b))) * 1 :=
          (mul_lt_mul_left hWpos).mpr key
      _ = (a / (a + b)) ^ (a / (a + b)) * (b / (a + b)) ^ (b / (a + b)) := mul_one _
  have hfin := Real.rpow_lt_rpow
    (mul_nonneg (Real.rpow_nonneg hx0 _) (Real.rpow_nonneg h1x _)) key2 hs
  rw [Real.mul_rpow (Real.rpow_nonneg hx0 _) (Real.rpow_nonneg h1x _),
    Real.mul_rpow (Real.rpow_nonneg hw₁.le _) (Real.rpow_nonneg hw₂.le _),
    ← Real.rpow_mul hx0, ← Real.rpow_mul h1x, ← Real.rpow_mul hw₁.le,
    ← Real.rpow_mul hw₂.le, div_mul_cancel₀ a hs.ne', div_mul_cancel₀ b hs.ne'] at hfin
  exact hfin

/-- Weak version of `rpow_prod_lt`, valid at the maximizer as well. -/
theorem rpow_prod_le {a b x : ℝ} (ha : 0 < a) (hb : 0 < b) (hx0 : 0 ≤ x) (hx1 : x ≤ 1) :
    x ^ a * (1 - x) ^ b ≤ (a / (a + b)) ^ a * (b / (a + b)) ^ b := by
  have hs : 0 < a + b := by linarith
  by_cases h : x = a / (a + b)
  · subst h
    have h1 : 1 - a / (a + b) = b / (a + b) := by
      field_simp
    rw [h1]
  · exact (rpow_prod_lt ha hb hx0 hx1 h).le

/-- The Binomial kernel `p^k (1-p)^(n-k)` is maximized over `[0, 1]` at `p = k/n`. -/
theorem binom_kernel_le (n k : ℕ) (hn : 0 < n) (hk : k ≤ n) {p : ℝ}
    (hp0 : 0 ≤ p) (hp1 : p ≤ 1) :
    p ^ k * (1 - p) ^ (n - k) ≤ ((k : ℝ) / n) ^ k * (1 - (k : ℝ) / n) ^ (n - k) := by
  rcases Nat.eq_zero_or_pos k with rfl | hkpos
  · simp only [pow_zero, one_mul, Nat.cast_zero, zero_div, sub_zero, Nat.sub_zero, one_pow]
    exact pow_le_one₀ (by linarith) (by linarith)
  · rcases eq_or_lt_of_le hk with rfl | hkn
    · simp only [Nat.sub_self, pow_zero, mul_one, one_pow,
        div_self (Nat.cast_ne_zero.mpr hn.ne' : (k : ℝ) ≠ 0)]
      exact pow_le_one₀ hp0 hp1
    · have ha : (0 : ℝ) < (k : ℝ) := Nat.cast_pos.mpr hkpos
      have hb : (0 : ℝ) < ((n - k : ℕ) : ℝ) := Nat.cast_pos.mpr (Nat.sub_pos_of_lt hkn)
      have hsum : (k : ℝ) + ((n - k : ℕ) : ℝ) = (n : ℝ) := by
        rw [Nat.cast_sub hkn.le]; ring
      have h1x : 1 - (k : ℝ) / n = ((n - k : ℕ) : ℝ) / n := by
        rw [Nat.cast_sub hkn.le]
        have hn' : (n : ℝ) ≠ 0 := Nat.cast_ne_zero.mpr hn.ne'
        field_simp
      have hcore := rpow_prod_le ha hb hp0 hp1
      rw [hsum] at hcore
      simp only [Real.rpow_natCast] at hcore
      rwa [h1x]

/-! ## Theorems -/

/-- C1: for every number of trials `n` and number of successes `k` with
`0 ≤ k ≤ n` and every prior shape pair `(α, β)`, the Beta-Binomial posterior
update returns exactly `α' = k + α` and `β' = n - k + β`. -/
theorem posterior_update_eq (n k : ℕ) (α β : ℝ) (h : k ≤ n) :
    alpha_posterior k α = (k : ℝ) + α ∧ beta_posterior n k β = (n : ℝ) - (k : ℝ) + β :=
  ⟨rfl, rfl⟩

/-- Witness for C1 at `n = 5`, `k = 3`, `α = 2`, `β = 1`. -/
theorem posterior_update_eq_witness :
    alpha_posterior 3 2 = ((3 : ℕ) : ℝ) + 2 ∧
      beta_posterior 5 3 1 = ((5 : ℕ) : ℝ) - ((3 : ℕ) : ℝ) + 1 :=
  posterior_update_eq 5 3 2 1 (by norm_num)

/-- C8: the posterior update preserves validity of Beta parameters: for
`α > 0`, `β > 0` and `0 ≤ k ≤ n`, both updated parameters are positive. -/
theorem posterior_params_pos (n k : ℕ) (α β : ℝ) (hα : 0 < α) (hβ : 0 < β)
    (h : k ≤ n) : 0 < alpha_posterior k α ∧ 0 < beta_posterior n k β := by
  have hkn : (k : ℝ) ≤ (n : ℝ) := Nat.cast_le.mpr h
  constructor
  · have : (0 : ℝ) ≤ (k : ℝ) := Nat.cast_nonneg k
    unfold alpha_posterior
    linarith
  · unfold beta_posterior
    linarith

/-- Witness for C8 at `n = 5`, `k = 3`, `α = 2`, `β = 1`. -/
theorem posterior_params_pos_witness :
    0 < alpha_posterior 3 2 ∧ 0 < beta_posterior 5 3 1 :=
  posterior_params_pos 5 3 2 1 (by norm_num) (by norm_num) (by norm_num)

/-- C9: posterior updates compose additively and commute: updating with
`(n₁, k₁)` then `(n₂, k₂)` equals a single update with `(n₁ + n₂, k₁ + k₂)`,
and equals updating in the opposite order. -/
theorem posterior_update_comp (n₁ k₁ n₂ k₂ : ℕ) (α β : ℝ)
    (h₁ : k₁ ≤ n₁) (h₂ : k₂ ≤ n₂) :
    alpha_posterior k₂ (alpha_posterior k₁ α) = alpha_posterior (k₁ + k₂) α ∧
    beta_posterior n₂ k₂ (beta_posterior n₁ k₁ β) =
      beta_posterior (n₁ + n₂) (k₁ + k₂) β ∧
    alpha_posterior k₂ (alpha_posterior k₁ α) = alpha_posterior k₁ (alpha_posterior k₂ α) ∧
    beta_posterior n₂ k₂ (beta_posterior n₁ k₁ β) =
      beta_posterior n₁ k₁ (beta_posterior n₂ k₂ β) := by
  refine ⟨?_, ?_, ?_, ?_⟩ <;>
    · simp only [alpha_posterior, beta_posterior]
      push_cast
      ring

/-- Witness for C9 at `(n₁, k₁) = (2, 1)`, `(n₂, k₂) = (3, 2)`, `α = 2`, `β = 1`. -/
theorem posterior_update_comp_witness :
    alpha_posterior 2 (alpha_posterior 1 2) = alpha_posterior (1 + 2) 2 ∧
    beta_posterior 3 2 (beta_posterior 2 1 1) = beta_posterior (2 + 3) (1 + 2) 1 ∧
    alpha_posterior 2 (alpha_posterior 1 2) = alpha_posterior 1 (alpha_posterior 2 2) ∧
    beta_posterior 3 2 (beta_posterior 2 1 1) = beta_posterior 2 1 (beta_posterior 3 2 1) :=
  posterior_update_comp 2 1 3 2 2 1 (by norm_num) (by norm_num)

/-- C10: under the uniform prior `Beta(1, 1)`, the MAP of the posterior
coincides with the MLE: `MAP (k + 1) (n - k + 1) = k / n` for `n > 0`. -/
theorem map_uniform_prior_eq_mle (n k : ℕ) (hn : 0 < n) (hk : k ≤ n) :
    MAP (alpha_posterior k 1) (beta_posterior n k 1) = mle n k := by
  unfold MAP alpha_posterior beta_posterior mle
  congr 1 <;> ring

/-- Witness for C10 at `n = 4`, `k = 1`. -/
theorem map_uniform_prior_eq_mle_witness :
    MAP (alpha_posterior 1 1) (beta_posterior 4 1 1) = mle 4 1 :=
  map_uniform_prior_eq_mle 4 1 (by norm_num) (by norm_num)

/-- C2: for every `p ∈ [0, 1]`, `α > 0`, `β > 0` and `0 ≤ k ≤ n`, the product
of the Binomial likelihood and the `Beta(α, β)` density equals, up to a
positive constant factor not depending on `p`, the `Beta(k + α, n - k + β)`
density: the posterior stays in the Beta family. -/
theorem beta_binomial_conjugacy (n k : ℕ) (α β : ℝ) (hα : 0 < α) (hβ : 0 < β)
    (hk : k ≤ n) :
    ∃ c : ℝ, 0 < c ∧ ∀ p : ℝ, 0 ≤ p → p ≤ 1 →
      likelihood n k p * PDF_Beta_gamma α β p =
        c * PDF_Beta_gamma ((k : ℝ) + α) ((n : ℝ) - (k : ℝ) + β) p := by
  have hkn : (k : ℝ) ≤ (n : ℝ) := Nat.cast_le.mpr hk
  have hk0 : (0 : ℝ) ≤ (k : ℝ) := Nat.cast_nonneg k
  have hΓα := Real.Gamma_pos_of_pos hα
  have hΓβ := Real.Gamma_pos_of_pos hβ
  have hΓαβ := Real.Gamma_pos_of_pos (by linarith : (0 : ℝ) < α + β)
  have hkα : (0 : ℝ) < (k : ℝ) + α := by linarith
  have hnkβ : (0 : ℝ) < (n : ℝ) - (k : ℝ) + β := by linarith
  have hΓkα := Real.Gamma_pos_of_pos hkα
  have hΓnkβ := Real.Gamma_pos_of_pos hnkβ
  have hΓsum := Real.Gamma_pos_of_pos
    (by linarith : (0 : ℝ) < (k : ℝ) + α + ((n : ℝ) - (k : ℝ) + β))
  have hC : (0 : ℝ) < (n.choose k : ℝ) := by exact_mod_cast Nat.choose_pos hk
  refine ⟨(n.choose k : ℝ) * Real.Gamma (α + β) * Real.Gamma ((k : ℝ) + α) *
      Real.Gamma ((n : ℝ) - (k : ℝ) + β) /
      (Real.Gamma α * Real.Gamma β * Real.Gamma ((k : ℝ) + α + ((n : ℝ) - (k : ℝ) + β))),
    ?_, ?_⟩
  · exact div_pos (mul_pos (mul_pos (mul_pos hC hΓαβ) hΓkα) hΓnkβ)
      (mul_pos (mul_pos hΓα hΓβ) hΓsum)
  · intro p hp0 hp1
    have h1p : (0 : ℝ) ≤ 1 - p := by linarith
    have e1 : p ^ k * p ^ (α - 1) = p ^ ((k : ℝ) + α - 1) := pow_mul_rpow hp0 k hα
    have e2 : (1 - p) ^ (n - k) * (1 - p) ^ (β - 1)
        = (1 - p) ^ ((n : ℝ) - (k : ℝ) + β - 1) := by
      have h := pow_mul_rpow h1p (n - k) hβ
      rwa [Nat.cast_sub hk] at h
    unfold likelihood PDF_Beta_gamma
    rw [show (n.choose k : ℝ) * p ^ k * (1 - p) ^ (n - k) *
        (Real.Gamma (α + β) / (Real.Gamma α * Real.Gamma β) * p ^ (α - 1) *
          (1 - p) ^ (β - 1)) =
        (n.choose k : ℝ) * (Real.Gamma (α + β) / (Real.Gamma α * Real.Gamma β)) *
          ((p ^ k * p ^ (α - 1)) * ((1 - p) ^ (n - k) * (1 - p) ^ (β - 1))) from by ring]
    rw [e1, e2]
    field_simp
    ring

/-- Witness for C2 at `n = 2`, `k = 1`, `α = β = 1`. -/
theorem beta_binomial_conjugacy_witness :
    ∃ c : ℝ, 0 < c ∧ ∀ p : ℝ, 0 ≤ p → p ≤ 1 →
      likelihood 2 1 p * PDF_Beta_gamma 1 1 p =
        c * PDF_Beta_gamma (((1 : ℕ) : ℝ) + 1) (((2 : ℕ) : ℝ) - ((1 : ℕ) : ℝ) + 1) p :=
  beta_binomial_conjugacy 2 1 1 1 (by norm_num) (by norm_num) (by norm_num)

/-- C6: for every positive integer `z`, the Gamma function satisfies
`Γ(z) = ∫ x in (0,∞), x^(z-1) e^(-x) = (z-1)!`. -/
theorem gamma_integral_eq_factorial (z : ℕ) (hz : 0 < z) :
    Real.Gamma z = Gamma_integral z ∧ Gamma_integral z = ((Nat.factorial (z - 1) : ℕ) : ℝ) := by
  have h1 : Real.Gamma z = Gamma_integral z := by
    rw [Real.Gamma_eq_integral (by exact_mod_cast hz : (0 : ℝ) < (z : ℝ))]
    unfold Gamma_integral
    exact setIntegral_congr_fun measurableSet_Ioi fun x _ => mul_comm _ _
  refine ⟨h1, ?_⟩
  rw [← h1]
  obtain ⟨m, rfl⟩ : ∃ m, z = m + 1 := ⟨z - 1, (Nat.succ_pred_eq_of_pos hz).symm⟩
  rw [show ((m + 1 : ℕ) : ℝ) = (m : ℝ) + 1 from by push_cast; ring,
    Real.Gamma_nat_eq_factorial]
  norm_num

/-- Witness for C6 at `z = 3`. -/
theorem gamma_integral_eq_factorial_witness :
    Real.Gamma ((3 : ℕ) : ℝ) = Gamma_integral ((3 : ℕ) : ℝ) ∧
      Gamma_integral ((3 : ℕ) : ℝ) = ((Nat.factorial (3 - 1) : ℕ) : ℝ) :=
  gamma_integral_eq_factorial 3 (by norm_num)

/-- C3: for every `n > 0` and `0 ≤ k ≤ n`, the MLE point estimate of the
Binomial success rate equals `k/n`, and `p = k/n` maximizes the Binomial
likelihood `L(n, k | p) = C(n,k) p^k (1-p)^(n-k)` over all `p ∈ [0, 1]`. -/
theorem mle_maximizes (n k : ℕ) (hn : 0 < n) (hk : k ≤ n) :
    mle n k = (k : ℝ) / n ∧
      ∀ p : ℝ, 0 ≤ p → p ≤ 1 → likelihood n k p ≤ likelihood n k (mle n k) := by
  refine ⟨rfl, fun p hp0 hp1 => ?_⟩
  have hker := binom_kernel_le n k hn hk hp0 hp1
  have hC : (0 : ℝ) ≤ (n.choose k : ℝ) := Nat.cast_nonneg _
  unfold likelihood mle
  calc (n.choose k : ℝ) * p ^ k * (1 - p) ^ (n - k)
      = (n.choose k : ℝ) * (p ^ k * (1 - p) ^ (n - k)) := by ring
    _ ≤ (n.choose k : ℝ) * (((k : ℝ) / n) ^ k * (1 - (k : ℝ) / n) ^ (n - k)) :=
        mul_le_mul_of_nonneg_left hker hC
    _ = (n.choose k : ℝ) * ((k : ℝ) / n) ^ k * (1 - (k : ℝ) / n) ^ (n - k) := by ring

/-- Witness for C3 at `n = 4`, `k = 1`. -/
theorem mle_maximizes_witness :
    mle 4 1 = ((1 : ℕ) : ℝ) / ((4 : ℕ) : ℝ) ∧
      ∀ p : ℝ, 0 ≤ p → p ≤ 1 → likelihood 4 1 p ≤ likelihood 4 1 (mle 4 1) :=
  mle_maximizes 4 1 (by norm_num) (by norm_num)

/-- C4 counterexample: at `α = β = 1` the value `MAP 1 1` is not the unique
argmax over `[0, 1]` of the `Beta(1, 1)` density, which is constant:
`x = 1/2` attains the same density value. -/
theorem map_not_mode_for_all_params :
    ¬ (MAP 1 1 = ((1 : ℝ) - 1) / (1 + 1 - 2) ∧
        ∀ x ∈ Icc (0 : ℝ) 1, x ≠ MAP 1 1 →
          PDF_Beta_gamma 1 1 x < PDF_Beta_gamma 1 1 (MAP 1 1)) := by
  rintro ⟨-, h⟩
  have hmap : MAP 1 1 = 0 := by
    unfold MAP
    norm_num
  have hpdf : ∀ x : ℝ, PDF_Beta_gamma 1 1 x = 1 := by
    intro x
    unfold PDF_Beta_gamma
    norm_num [Real.rpow_zero]
  have h2 := h (1 / 2) (Set.mem_Icc.mpr ⟨by norm_num, by norm_num⟩) (by rw [hmap]; norm_num)
  rw [hpdf, hpdf] at h2
  exact lt_irrefl 1 h2

/-- C4 (amended): for every `α > 1` and `β > 1`, `MAP α β = (α-1)/(α+β-2)`,
and this value is the mode — the unique argmax over `x ∈ [0, 1]` — of the
`Beta(α, β)` probability density function. -/
theorem map_is_mode (α β : ℝ) (hα : 1 < α) (hβ : 1 < β) :
    MAP α β = (α - 1) / (α + β - 2) ∧ MAP α β ∈ Icc (0 : ℝ) 1 ∧
      ∀ x ∈ Icc (0 : ℝ) 1, x ≠ MAP α β →
        PDF_Beta_gamma α β x < PDF_Beta_gamma α β (MAP α β) := by
  have ha : 0 < α - 1 := by linarith
  have hb : 0 < β - 1 := by linarith
  have hs : 0 < (α - 1) + (β - 1) := by linarith
  have hm : MAP α β = (α - 1) / ((α - 1) + (β - 1)) := by
    unfold MAP
    congr 1
    ring
  have h1m : 1 - MAP α β = (β - 1) / ((α - 1) + (β - 1)) := by
    rw [hm]
    field_simp
  have hB : 0 < Real.Gamma (α + β) / (Real.Gamma α * Real.Gamma β) :=
    div_pos (Real.Gamma_pos_of_pos (by linarith))
      (mul_pos (Real.Gamma_pos_of_pos (by linarith)) (Real.Gamma_pos_of_pos (by linarith)))
  refine ⟨rfl, ?_, ?_⟩
  · rw [hm]
    exact Set.mem_Icc.mpr ⟨div_nonneg ha.le hs.le, by rw [div_le_one hs]; linarith⟩
  · intro x hx hne
    have hxm : x ≠ (α - 1) / ((α - 1) + (β - 1)) := by rwa [hm] at hne
    have hcore := rpow_prod_lt ha hb hx.1 hx.2 hxm
    unfold PDF_Beta_gamma
    rw [h1m, hm]
    rw [mul_assoc, mul_assoc]
    exact (mul_lt_mul_left hB).mpr hcore

/-- Witness for C4 (amended) at `α = β = 2`. -/
theorem map_is_mode_witness :
    MAP 2 2 = ((2 : ℝ) - 1) / (2 + 2 - 2) ∧ MAP 2 2 ∈ Icc (0 : ℝ) 1 ∧
      ∀ x ∈ Icc (0 : ℝ) 1, x ≠ MAP 2 2 →
        PDF_Beta_gamma 2 2 x < PDF_Beta_gamma 2 2 (MAP 2 2) :=
  map_is_mode 2 2 (by norm_num) (by norm_num)

/-- The complex Beta integral at real arguments is the real Beta function. -/
theorem betaIntegral_ofReal (α β : ℝ) :
    Complex.betaIntegral (α : ℂ) (β : ℂ) = ((Beta_fn α β : ℝ) : ℂ) := by
  rw [Complex.betaIntegral, Beta_fn, ← intervalIntegral.integral_ofReal]
  refine intervalIntegral.integral_congr fun x hx => ?_
  have hx' : x ∈ Icc (0 : ℝ) 1 := by
    rwa [uIcc_of_le (by norm_num : (0 : ℝ) ≤ 1)] at hx
  have h1x : (0 : ℝ) ≤ 1 - x := by linarith [hx'.2]
  rw [Complex.ofReal_mul, Complex.ofReal_cpow hx'.1, Complex.ofReal_cpow h1x]
  push_cast
  ring

/-- Real version of the identity `Γ(α)Γ(β) = Γ(α+β) · B(α, β)`. -/
theorem Gamma_mul_Gamma_eq_Beta_fn (α β : ℝ) (hα : 0 < α) (hβ : 0 < β) :
    Real.Gamma α * Real.Gamma β = Real.Gamma (α + β) * Beta_fn α β := by
  have hs' : 0 < Complex.re (α : ℂ) := by simpa using hα
  have ht' : 0 < Complex.re (β : ℂ) := by simpa using hβ
  have hc := Complex.Gamma_mul_Gamma_eq_betaIntegral hs' ht'
  rw [betaIntegral_ofReal, Complex.Gamma_ofReal, Complex.Gamma_ofReal,
    ← Complex.ofReal_add, Complex.Gamma_ofReal] at hc
  exact_mod_cast hc

/-- C7: for every `α > 0` and `β > 0`, `Γ(α)Γ(β)/Γ(α+β)` equals the Beta
integral `∫ u in 0..1, u^(α-1) (1-u)^(β-1)`, and consequently the two stated
forms of the Beta probability density function agree for every `x ∈ [0, 1]`. -/
theorem beta_pdf_forms_agree (α β : ℝ) (hα : 0 < α) (hβ : 0 < β) :
    Real.Gamma α * Real.Gamma β / Real.Gamma (α + β) = Beta_fn α β ∧
      ∀ x ∈ Icc (0 : ℝ) 1, PDF_Beta_integral α β x = PDF_Beta_gamma α β x := by
  have hΓα := Real.Gamma_pos_of_pos hα
  have hΓβ := Real.Gamma_pos_of_pos hβ
  have hΓαβ := Real.Gamma_pos_of_pos (by linarith : (0 : ℝ) < α + β)
  have key := Gamma_mul_Gamma_eq_Beta_fn α β hα hβ
  have h1 : Real.Gamma α * Real.Gamma β / Real.Gamma (α + β) = Beta_fn α β := by
    rw [div_eq_iff hΓαβ.ne', key]
    ring
  refine ⟨h1, fun x _ => ?_⟩
  unfold PDF_Beta_integral PDF_Beta_gamma
  rw [← h1]
  field_simp
  ring

/-- Witness for C7 at `α = β = 1`. -/
theorem beta_pdf_forms_agree_witness :
    Real.Gamma 1 * Real.Gamma 1 / Real.Gamma (1 + 1) = Beta_fn 1 1 ∧
      ∀ x ∈ Icc (0 : ℝ) 1, PDF_Beta_integral 1 1 x = PDF_Beta_gamma 1 1 x :=
  beta_pdf_forms_agree 1 1 (by norm_num) (by norm_num)

/-- C5 counterexample: it is not the case that every code cell of the
notebook has entire source `# A:`: the first code cell holds the library
imports and the last one is empty. -/
theorem code_cells_not_all_stub : ¬ ∀ c ∈ code_cells, c = "# A:" := by
  decide

/-- C5 (amended): every code cell of the notebook other than the first
(library imports and plotting configuration) and the last (empty) is a
placeholder whose entire source is the comment `# A:`. -/
theorem code_cells_stub_except_ends :
    ∀ c ∈ (code_cells.drop 1).dropLast, c = "# A:" := by
  decide

/-- Witness for C5 (amended) at the second code cell of the notebook. -/
theorem code_cells_stub_except_ends_witness :
    ("# A:" : String) ∈ (code_cells.drop 1).dropLast ∧ ("# A:" : String) = "# A:" :=
  ⟨by decide, code_cells_stub_except_ends ("# A:") (by decide)⟩

end BetaBinomial
